import Mathlib

/-!
Verification of the aiodiskqueue library: a shallow embedding of the
persistent FIFO queue (`src/aiodiskqueue/queues.py`, `src/aiodiskqueue/core.py`)
and its storage engines (`engines/simple.py`, `engines/dbm.py`,
`engines/sqlite.py`), together with proofs of the spec's testable properties.

Items are opaque serializable values; we model them by a type parameter `α`
and treat pickling as the identity on parseable payloads (the serialization
boundary is assumed reversible by the spec).  File-system state is modelled
as the content of the queue's data path plus the content of the reserved
`.bak` backup path.
-/

namespace Adq

/-- Content of a flat data file used by the pickle based engines: either a
well-formed pickled payload carrying a list of items, or unparsable bytes
(raising `pickle.PickleError` on load). -/
inductive FileData (α : Type) where
  | good : List α → FileData α
  | corrupt : FileData α
deriving DecidableEq

/-- File-system slice visible to a simple engine: the data file at
`_data_path` and the backup file at `_data_path.with_suffix(".bak")`.
`none` means the file does not exist. -/
structure SimpleFS (α : Type) where
  dataFile : Option (FileData α)
  bakFile : Option (FileData α)
deriving DecidableEq

namespace PickledList

/-- PickledList._save_all_items: overwrite the data file with the pickled
list of items (`open(..., "wb")` creates the file if absent). -/
def saveAllItems (items : List α) (fs : SimpleFS α) : SimpleFS α :=
  { fs with dataFile := some (.good items) }

/-- PickledList.fetch_all: read the data file; on `FileNotFoundError` return
the empty list; on `pickle.PickleError` rename the data file to the `.bak`
path and return the empty list; otherwise return the pickled list.
Returns the items together with the possibly changed file system. -/
def fetch_all (fs : SimpleFS α) : List α × SimpleFS α :=
  match fs.dataFile with
  | none => ([], fs)
  | some (.good items) => (items, fs)
  | some .corrupt => ([], { dataFile := none, bakFile := fs.dataFile })

/-- PickledList.initialize: save the empty list of items. -/
def initStore (fs : SimpleFS α) : SimpleFS α :=
  saveAllItems [] fs

/-- PickledList.add_item: fetch all items, append the new item, save all. -/
def add_item (item : α) (fs : SimpleFS α) : SimpleFS α :=
  let p := fetch_all fs
  saveAllItems (p.1 ++ [item]) p.2

/-- PickledList.remove_item: fetch all items, `items.pop(0)` (raising
`IndexError` when the list is empty, before anything is saved), save the
rest.  The error case is `Except.error`. -/
def remove_item (fs : SimpleFS α) : Except Unit (SimpleFS α) :=
  let p := fetch_all fs
  match p.1 with
  | [] => .error ()
  | _ :: rest => .ok (saveAllItems rest p.2)

end PickledList

/-- One pickle frame inside a PickleSequence data file: a well-formed frame
carrying one item, or an unparsable frame. -/
inductive PSFrame (α : Type) where
  | ok : α → PSFrame α
  | bad : PSFrame α
deriving DecidableEq

/-- File-system slice visible to the PickleSequence engine: the data file is
a concatenation of pickle frames. -/
structure PSFS (α : Type) where
  dataFile : Option (List (PSFrame α))
  bakFile : Option (List (PSFrame α))
deriving DecidableEq

namespace PickleSequence

/-- Parse a concatenation of pickle frames front to back: stops with `none`
at the first unparsable frame (the `pickle.PickleError` branch of
PickleSequence.fetch_all), otherwise yields all carried items. -/
def parseFrames : List (PSFrame α) → Option (List α)
  | [] => some []
  | .ok x :: rest => (parseFrames rest).map (x :: ·)
  | .bad :: _ => none

/-- PickleSequence._save_all_items: overwrite the data file with one frame
per item. -/
def saveAllItems (items : List α) (fs : PSFS α) : PSFS α :=
  { fs with dataFile := some (items.map .ok) }

/-- PickleSequence.fetch_all: read the data file; missing file yields the
empty list; an unparsable frame renames the data file to the `.bak` path and
yields the empty list; otherwise yields the items of all frames in order. -/
def fetch_all (fs : PSFS α) : List α × PSFS α :=
  match fs.dataFile with
  | none => ([], fs)
  | some frames =>
    match parseFrames frames with
    | some items => (items, fs)
    | none => ([], { dataFile := none, bakFile := fs.dataFile })

/-- PickleSequence.initialize: save the empty list of items. -/
def initStore (fs : PSFS α) : PSFS α :=
  saveAllItems [] fs

/-- PickleSequence.add_item: append one pickled frame to the data file
(`open(..., "ab")` creates the file if absent). -/
def add_item (item : α) (fs : PSFS α) : PSFS α :=
  { fs with dataFile := some ((fs.dataFile.getD []) ++ [.ok item]) }

/-- PickleSequence.remove_item: fetch all items, `items.pop(0)` (raising
`IndexError` when empty, before anything is saved), save the rest. -/
def remove_item (fs : PSFS α) : Except Unit (PSFS α) :=
  let p := fetch_all fs
  match p.1 with
  | [] => .error ()
  | _ :: rest => .ok (saveAllItems rest p.2)

end PickleSequence

/-! The queue of `queues.py`, parametric in the storage engine. -/

/-- Interface of a FIFO storage engine as used by `queues.py`
(`FifoStorageEngine` in `engines/base.py`): `fetch_all` may move a corrupt
store aside, so it returns the new store state as well; `remove_item` can
raise (for instance on an empty store), modelled by `Except`. -/
structure Engine (σ α : Type) where
  fetch_all : σ → List α × σ
  initStore : σ → σ
  add_item : α → σ → σ
  remove_item : σ → Except Unit σ

/-- PickledList packaged as a storage engine. -/
def pickledListEngine (α : Type) : Engine (SimpleFS α) α where
  fetch_all := PickledList.fetch_all
  initStore := PickledList.initStore
  add_item := PickledList.add_item
  remove_item := PickledList.remove_item

/-- PickleSequence packaged as a storage engine. -/
def pickleSequenceEngine (α : Type) : Engine (PSFS α) α where
  fetch_all := PickleSequence.fetch_all
  initStore := PickleSequence.initStore
  add_item := PickleSequence.add_item
  remove_item := PickleSequence.remove_item

/-- Errors surfaced by the queue operations: `QueueEmpty`, `QueueFull`, the
`ValueError` of `task_done() called too many times`, and a propagated
storage-engine exception. -/
inductive QErr where
  | empty
  | full
  | taskUnderflow
  | storeFail
deriving DecidableEq

/-- State of one `Queue` instance from `queues.py`: the `_maxsize` bound
(already clamped by `max(0, maxsize)`), the in-memory mirror `_queue`, the
`_unfinished_tasks` counter and the storage-engine state. -/
structure QueueState (σ α : Type) where
  maxsize : Nat
  queue : List α
  unfinished_tasks : Int
  store : σ
deriving DecidableEq

/-- Queue.qsize: length of the in-memory mirror. -/
def qsize (s : QueueState σ α) : Nat :=
  s.queue.length

/-- Queue.empty: `qsize() == 0`. -/
def isEmptyQ (s : QueueState σ α) : Bool :=
  qsize s == 0

/-- Queue.full: `False` when `_maxsize` is falsy, else `qsize() >= _maxsize`. -/
def isFullQ (s : QueueState σ α) : Bool :=
  if s.maxsize = 0 then false else qsize s ≥ s.maxsize

/-- Queue.put_nowait: under the lock, raise `QueueFull` when `_maxsize` is
truthy and `qsize() >= _maxsize`; otherwise append the item to the mirror,
persist it through the engine's `add_item` and increment
`_unfinished_tasks`. -/
def put_nowait (E : Engine σ α) (item : α) (s : QueueState σ α) :
    Except QErr (QueueState σ α) :=
  if s.maxsize ≠ 0 ∧ qsize s ≥ s.maxsize then .error .full
  else .ok { s with
    queue := s.queue ++ [item]
    store := E.add_item item s.store
    unfinished_tasks := s.unfinished_tasks + 1 }

/-- Queue.get_nowait: under the lock, raise `QueueEmpty` when the mirror is
empty; otherwise pop the head of the mirror and persist the removal through
the engine's `remove_item` (whose exception would propagate). -/
def get_nowait (E : Engine σ α) (s : QueueState σ α) :
    Except QErr (α × QueueState σ α) :=
  match s.queue with
  | [] => .error .empty
  | item :: rest =>
    match E.remove_item s.store with
    | .error _ => .error .storeFail
    | .ok st => .ok (item, { s with queue := rest, store := st })

/-- Queue.task_done: raise `ValueError` when `_unfinished_tasks <= 0`, else
decrement the counter. -/
def task_done (s : QueueState σ α) : Except QErr (QueueState σ α) :=
  if s.unfinished_tasks ≤ 0 then .error .taskUnderflow
  else .ok { s with unfinished_tasks := s.unfinished_tasks - 1 }

/-- Queue.create: fetch the persisted items; when none were recovered,
initialize the store; build the queue state with `_maxsize = max(0, maxsize)`,
the recovered items as mirror and a zero task counter. -/
def create (E : Engine σ α) (maxsize : Int) (st : σ) : QueueState σ α :=
  let p := E.fetch_all st
  let st2 := if p.1.isEmpty then E.initStore p.2 else p.2
  { maxsize := (max 0 maxsize).toNat
    queue := p.1
    unfinished_tasks := 0
    store := st2 }

/-! Sequences of queue operations and the states they reach. -/

/-- One externally invokable mutating queue call. -/
inductive Op (α : Type) where
  | putNW : α → Op α
  | getNW : Op α
  | taskDone : Op α

/-- Apply one operation; a call that raises (Full, Empty, task underflow)
leaves the state unchanged, since in the source the exception is raised
before any mutation. -/
def applyOp (E : Engine σ α) (s : QueueState σ α) : Op α → QueueState σ α
  | .putNW x =>
    match put_nowait E x s with
    | .ok s2 => s2
    | .error _ => s
  | .getNW =>
    match get_nowait E s with
    | .ok r => r.2
    | .error _ => s
  | .taskDone =>
    match task_done s with
    | .ok s2 => s2
    | .error _ => s

/-- Run a sequence of operations from a state. -/
def run (E : Engine σ α) (s : QueueState σ α) (ops : List (Op α)) :
    QueueState σ α :=
  ops.foldl (applyOp E) s

/-- Items currently persisted by the engine (first component of
`fetch_all`, without the file-system effect). -/
def contents (E : Engine σ α) (st : σ) : List α :=
  (E.fetch_all st).1

/-- Laws every storage engine satisfies on well-formed stores, proved below
for the concrete engines; `WF` singles out the store states the queue can
actually reach (in particular, not corrupt). -/
structure EngineLaws (E : Engine σ α) (WF : σ → Prop) : Prop where
  wf_fetch : ∀ st, WF (E.fetch_all st).2
  wf_init : ∀ st, WF (E.initStore st)
  contents_fetch : ∀ st, contents E (E.fetch_all st).2 = (E.fetch_all st).1
  contents_init : ∀ st, contents E (E.initStore st) = []
  wf_add : ∀ x st, WF st → WF (E.add_item x st)
  contents_add : ∀ x st, WF st → contents E (E.add_item x st) = contents E st ++ [x]
  remove_ok : ∀ st x rest, WF st → contents E st = x :: rest →
    ∃ st2, E.remove_item st = .ok st2 ∧ WF st2 ∧ contents E st2 = rest

/-- Reconcilability invariant of `queues.py`: the engine store is
well-formed and its persisted contents coincide with the in-memory mirror. -/
def QInv (E : Engine σ α) (WF : σ → Prop) (s : QueueState σ α) : Prop :=
  WF s.store ∧ contents E s.store = s.queue

theorem create_QInv (E : Engine σ α) (WF : σ → Prop) (L : EngineLaws E WF)
    (m : Int) (st : σ) : QInv E WF (create E m st) := by
  unfold create QInv
  by_cases h : (E.fetch_all st).1.isEmpty
  · simp only [h, if_true]
    exact ⟨L.wf_init _, by
      rw [L.contents_init]
      exact (List.isEmpty_iff.mp h).symm⟩
  · simp only [h, if_false]
    exact ⟨L.wf_fetch _, L.contents_fetch _⟩

theorem put_nowait_QInv (E : Engine σ α) (WF : σ → Prop) (L : EngineLaws E WF)
    (x : α) (s s2 : QueueState σ α) (hs : QInv E WF s)
    (h : put_nowait E x s = .ok s2) : QInv E WF s2 := by
  unfold put_nowait at h
  by_cases hc : s.maxsize ≠ 0 ∧ qsize s ≥ s.maxsize
  · simp [hc] at h
  · simp only [hc, if_neg, if_false] at h
    cases h
    exact ⟨L.wf_add x _ hs.1, by rw [L.contents_add x _ hs.1, hs.2]⟩

theorem get_nowait_QInv (E : Engine σ α) (WF : σ → Prop) (L : EngineLaws E WF)
    (s : QueueState σ α) (r : α × QueueState σ α) (hs : QInv E WF s)
    (h : get_nowait E s = .ok r) : QInv E WF r.2 := by
  unfold get_nowait at h
  match hq : s.queue with
  | [] => rw [hq] at h; exact absurd h (by simp)
  | x :: rest =>
    rw [hq] at h
    obtain ⟨st2, hrm, hwf, hct⟩ := L.remove_ok s.store x rest hs.1 (hs.2.trans hq)
    rw [hrm] at h
    cases h
    exact ⟨hwf, hct⟩

theorem task_done_QInv (E : Engine σ α) (WF : σ → Prop)
    (s s2 : QueueState σ α) (hs : QInv E WF s)
    (h : task_done s = .ok s2) : QInv E WF s2 := by
  unfold task_done at h
  by_cases hc : s.unfinished_tasks ≤ 0
  · simp [hc] at h
  · simp only [hc, if_false] at h
    cases h
    exact hs

theorem applyOp_QInv (E : Engine σ α) (WF : σ → Prop) (L : EngineLaws E WF)
    (s : QueueState σ α) (o : Op α) (hs : QInv E WF s) :
    QInv E WF (applyOp E s o) := by
  cases o with
  | putNW x =>
    match h : put_nowait E x s with
    | .ok s2 => simpa [applyOp, h] using put_nowait_QInv E WF L x s s2 hs h
    | .error e => simpa [applyOp, h] using hs
  | getNW =>
    match h : get_nowait E s with
    | .ok r => simpa [applyOp, h] using get_nowait_QInv E WF L s r hs h
    | .error e => simpa [applyOp, h] using hs
  | taskDone =>
    match h : task_done s with
    | .ok s2 => simpa [applyOp, h] using task_done_QInv E WF s s2 hs h
    | .error e => simpa [applyOp, h] using hs

theorem run_QInv (E : Engine σ α) (WF : σ → Prop) (L : EngineLaws E WF)
    (ops : List (Op α)) (s : QueueState σ α) (hs : QInv E WF s) :
    QInv E WF (run E s ops) := by
  induction ops generalizing s with
  | nil => exact hs
  | cons o rest ih => exact ih (applyOp E s o) (applyOp_QInv E WF L s o hs)

/-! The PickledList engine satisfies the engine laws; well-formed stores are
those whose data file, if present, parses. -/

/-- Well-formedness for the PickledList engine: the data file is absent or
parses as a pickled list. -/
def SimpleWF (fs : SimpleFS α) : Prop :=
  fs.dataFile = none ∨ ∃ xs, fs.dataFile = some (.good xs)

theorem pickledList_laws (α : Type) :
    EngineLaws (pickledListEngine α) SimpleWF := by
  constructor
  · intro st
    match h : st.dataFile with
    | none => exact .inl (by simp [pickledListEngine, PickledList.fetch_all, h])
    | some (.good xs) =>
      exact .inr ⟨xs, by simp [pickledListEngine, PickledList.fetch_all, h]⟩
    | some .corrupt =>
      exact .inl (by simp [pickledListEngine, PickledList.fetch_all, h])
  · intro st
    exact .inr ⟨[], rfl⟩
  · intro st
    match h : st.dataFile with
    | none => simp [pickledListEngine, PickledList.fetch_all, contents, h]
    | some (.good xs) => simp [pickledListEngine, PickledList.fetch_all, contents, h]
    | some .corrupt => simp [pickledListEngine, PickledList.fetch_all, contents, h]
  · intro st
    rfl
  · intro x st hwf
    rcases hwf with h | ⟨xs, h⟩
    · exact .inr ⟨[x], by
        simp [pickledListEngine, PickledList.add_item, PickledList.fetch_all,
          PickledList.saveAllItems, h]⟩
    · exact .inr ⟨xs ++ [x], by
        simp [pickledListEngine, PickledList.add_item, PickledList.fetch_all,
          PickledList.saveAllItems, h]⟩
  · intro x st hwf
    rcases hwf with h | ⟨xs, h⟩
    · simp [pickledListEngine, PickledList.add_item, PickledList.fetch_all,
        PickledList.saveAllItems, contents, h]
    · simp [pickledListEngine, PickledList.add_item, PickledList.fetch_all,
        PickledList.saveAllItems, contents, h]
  · intro st x rest hwf hct
    rcases hwf with h | ⟨xs, h⟩
    · exfalso
      simp [pickledListEngine, contents, PickledList.fetch_all, h] at hct
    · have hxs : xs = x :: rest := by
        simpa [pickledListEngine, contents, PickledList.fetch_all, h] using hct
      refine ⟨{ st with dataFile := some (.good rest) }, ?_, .inr ⟨rest, rfl⟩, ?_⟩
      · simp [pickledListEngine, PickledList.remove_item, PickledList.fetch_all,
          PickledList.saveAllItems, h, hxs]
      · simp [pickledListEngine, contents, PickledList.fetch_all]

/-! The PickleSequence engine satisfies the engine laws. -/

/-- Well-formedness for the PickleSequence engine: the data file is absent
or is a concatenation of parseable frames. -/
def PSWF (fs : PSFS α) : Prop :=
  fs.dataFile = none ∨ ∃ xs : List α, fs.dataFile = some (xs.map .ok)

theorem parseFrames_map_ok (xs : List α) :
    PickleSequence.parseFrames (xs.map .ok) = some xs := by
  induction xs with
  | nil => rfl
  | cons x rest ih => simp [PickleSequence.parseFrames, ih]

theorem parseFrames_eq_some (fr : List (PSFrame α)) (xs : List α)
    (h : PickleSequence.parseFrames fr = some xs) : fr = xs.map .ok := by
  induction fr generalizing xs with
  | nil =>
    simp only [PickleSequence.parseFrames, Option.some.injEq] at h
    rw [← h]
    rfl
  | cons f rest ih =>
    cases f with
    | ok a =>
      simp only [PickleSequence.parseFrames, Option.map_eq_some'] at h
      obtain ⟨ys, hys, hxs⟩ := h
      rw [← hxs]
      simp [ih ys hys]
    | bad => simp [PickleSequence.parseFrames] at h

theorem pickleSequence_laws (α : Type) :
    EngineLaws (pickleSequenceEngine α) PSWF := by
  constructor
  · intro st
    match h : st.dataFile with
    | none => exact .inl (by simp [pickleSequenceEngine, PickleSequence.fetch_all, h])
    | some frames =>
      match hp : PickleSequence.parseFrames frames with
      | some items =>
        refine .inr ⟨items, ?_⟩
        simp only [pickleSequenceEngine, PickleSequence.fetch_all, h, hp]
        rw [parseFrames_eq_some frames items hp]
      | none =>
        exact .inl (by simp [pickleSequenceEngine, PickleSequence.fetch_all, h, hp])
  · intro st
    exact .inr ⟨[], rfl⟩
  · intro st
    match h : st.dataFile with
    | none => simp [pickleSequenceEngine, PickleSequence.fetch_all, contents, h]
    | some frames =>
      match hp : PickleSequence.parseFrames frames with
      | some items =>
        simp [pickleSequenceEngine, PickleSequence.fetch_all, contents, h, hp]
      | none =>
        simp [pickleSequenceEngine, PickleSequence.fetch_all, contents, h, hp]
  · intro st
    rfl
  · intro x st hwf
    rcases hwf with h | ⟨xs, h⟩
    · refine .inr ⟨[x], ?_⟩
      simp [pickleSequenceEngine, PickleSequence.add_item, h]
    · refine .inr ⟨xs ++ [x], ?_⟩
      simp [pickleSequenceEngine, PickleSequence.add_item, h]
  · intro x st hwf
    rcases hwf with h | ⟨xs, h⟩
    · simp [pickleSequenceEngine, PickleSequence.add_item, PickleSequence.fetch_all,
        contents, h, PickleSequence.parseFrames]
    · have hx : PickleSequence.parseFrames (List.map PSFrame.ok xs ++ [PSFrame.ok x])
          = some (xs ++ [x]) := by
        simpa using parseFrames_map_ok (α := α) (xs ++ [x])
      simp [pickleSequenceEngine, PickleSequence.add_item, PickleSequence.fetch_all,
        contents, h, hx, parseFrames_map_ok]
  · intro st x rest hwf hct
    rcases hwf with h | ⟨xs, h⟩
    · exfalso
      simp [pickleSequenceEngine, contents, PickleSequence.fetch_all, h] at hct
    · have hxs : xs = x :: rest := by
        simpa [pickleSequenceEngine, contents, PickleSequence.fetch_all, h,
          parseFrames_map_ok] using hct
      subst hxs
      refine ⟨{ st with dataFile := some (rest.map .ok) }, ?_, .inr ⟨rest, rfl⟩, ?_⟩
      · simp [pickleSequenceEngine, PickleSequence.remove_item, PickleSequence.fetch_all,
          PickleSequence.saveAllItems, h, parseFrames_map_ok, PickleSequence.parseFrames]
      · simp [pickleSequenceEngine, contents, PickleSequence.fetch_all, parseFrames_map_ok]

/-! Bulk operations used to state the FIFO property. -/

/-- Perform the `put_nowait` calls for a list of items in order, stopping at
the first failure. -/
def putAll (E : Engine σ α) : List α → QueueState σ α → Except QErr (QueueState σ α)
  | [], s => .ok s
  | x :: rest, s =>
    match put_nowait E x s with
    | .ok s2 => putAll E rest s2
    | .error e => .error e

/-- Perform `n` `get_nowait` calls, collecting the returned items in call
order, stopping at the first failure. -/
def getN (E : Engine σ α) : Nat → QueueState σ α → Except QErr (List α × QueueState σ α)
  | 0, s => .ok ([], s)
  | n + 1, s =>
    match get_nowait E s with
    | .ok (x, s2) =>
      match getN E n s2 with
      | .ok (ys, s3) => .ok (x :: ys, s3)
      | .error e => .error e
    | .error e => .error e

theorem putAll_ok (E : Engine σ α) (WF : σ → Prop) (L : EngineLaws E WF)
    (xs : List α) (s : QueueState σ α) (hs : QInv E WF s)
    (hcap : s.maxsize = 0 ∨ s.queue.length + xs.length ≤ s.maxsize) :
    ∃ s2, putAll E xs s = .ok s2 ∧ s2.queue = s.queue ++ xs ∧
      s2.maxsize = s.maxsize ∧ QInv E WF s2 := by
  induction xs generalizing s with
  | nil => exact ⟨s, rfl, by simp, rfl, hs⟩
  | cons x rest ih =>
    have hnotfull : ¬(s.maxsize ≠ 0 ∧ qsize s ≥ s.maxsize) := by
      rcases hcap with h0 | hle
      · intro hc; exact hc.1 h0
      · intro hc
        have : s.queue.length + (x :: rest).length ≤ qsize s := le_trans hle hc.2
        simp [qsize] at this
    have hstep : put_nowait E x s = .ok { s with
        queue := s.queue ++ [x]
        store := E.add_item x s.store
        unfinished_tasks := s.unfinished_tasks + 1 } := by
      simp [put_nowait, hnotfull]
    have hs2 : QInv E WF { s with
        queue := s.queue ++ [x]
        store := E.add_item x s.store
        unfinished_tasks := s.unfinished_tasks + 1 } :=
      put_nowait_QInv E WF L x s _ hs hstep
    have hcap2 : ({ s with
        queue := s.queue ++ [x]
        store := E.add_item x s.store
        unfinished_tasks := s.unfinished_tasks + 1 } :
          QueueState σ α).maxsize = 0 ∨
        ({ s with
        queue := s.queue ++ [x]
        store := E.add_item x s.store
        unfinished_tasks := s.unfinished_tasks + 1 } :
          QueueState σ α).queue.length + rest.length ≤ s.maxsize := by
      rcases hcap with h0 | hle
      · exact .inl h0
      · right
        simp at hle ⊢
        omega
    obtain ⟨s2, hrun, hq, hm, hinv⟩ := ih _ hs2 hcap2
    refine ⟨s2, ?_, ?_, ?_, hinv⟩
    · simp [putAll, hstep, hrun]
    · simp at hq
      simp [hq]
    · simpa using hm

theorem getN_ok (E : Engine σ α) (WF : σ → Prop) (L : EngineLaws E WF)
    (xs rest : List α) (s : QueueState σ α) (hs : QInv E WF s)
    (hq : s.queue = xs ++ rest) :
    ∃ s2, getN E xs.length s = .ok (xs, s2) ∧ s2.queue = rest ∧ QInv E WF s2 := by
  induction xs generalizing s with
  | nil => exact ⟨s, rfl, by simpa using hq, hs⟩
  | cons x tl ih =>
    have hqs : s.queue = x :: (tl ++ rest) := by simpa using hq
    obtain ⟨st2, hrm, hwf2, hct2⟩ :=
      L.remove_ok s.store x (tl ++ rest) hs.1 (hs.2.trans hqs)
    have hstep : get_nowait E s =
        .ok (x, { s with queue := tl ++ rest, store := st2 }) := by
      simp [get_nowait, hqs, hrm]
    have hs2 : QInv E WF { s with queue := tl ++ rest, store := st2 } :=
      ⟨hwf2, hct2⟩
    obtain ⟨s3, hrun, hq3, hinv3⟩ := ih _ hs2 rfl
    exact ⟨s3, by simp [getN, hstep, hrun], hq3, hinv3⟩

/-! Anatomy of the successful operations. -/

theorem put_nowait_ok_anatomy (E : Engine σ α) (x : α) (s s2 : QueueState σ α)
    (h : put_nowait E x s = .ok s2) :
    s2.maxsize = s.maxsize ∧ s2.queue = s.queue ++ [x] ∧
      s2.unfinished_tasks = s.unfinished_tasks + 1 ∧
      ¬(s.maxsize ≠ 0 ∧ qsize s ≥ s.maxsize) := by
  unfold put_nowait at h
  by_cases hc : s.maxsize ≠ 0 ∧ qsize s ≥ s.maxsize
  · simp [hc] at h
  · simp only [hc, if_false] at h
    cases h
    exact ⟨rfl, rfl, rfl, hc⟩

theorem put_nowait_full_iff (E : Engine σ α) (x : α) (s : QueueState σ α) :
    put_nowait E x s = .error .full ↔ (s.maxsize ≠ 0 ∧ qsize s ≥ s.maxsize) := by
  unfold put_nowait
  by_cases hc : s.maxsize ≠ 0 ∧ qsize s ≥ s.maxsize
  · simp [hc]
  · simp [hc]

theorem get_nowait_ok_anatomy (E : Engine σ α) (s : QueueState σ α)
    (r : α × QueueState σ α) (h : get_nowait E s = .ok r) :
    r.2.maxsize = s.maxsize ∧ s.queue = r.1 :: r.2.queue ∧
      r.2.unfinished_tasks = s.unfinished_tasks := by
  unfold get_nowait at h
  match hq : s.queue with
  | [] => rw [hq] at h; exact absurd h (by simp)
  | x :: rest =>
    rw [hq] at h
    match hrm : E.remove_item s.store with
    | .error e => rw [hrm] at h; exact absurd h (by simp)
    | .ok st2 =>
      rw [hrm] at h
      cases h
      exact ⟨rfl, rfl, rfl⟩

theorem task_done_ok_anatomy (s s2 : QueueState σ α)
    (h : task_done s = .ok s2) :
    s2.maxsize = s.maxsize ∧ s2.queue = s.queue ∧
      s2.unfinished_tasks = s.unfinished_tasks - 1 ∧ 0 < s.unfinished_tasks := by
  unfold task_done at h
  by_cases hc : s.unfinished_tasks ≤ 0
  · simp [hc] at h
  · simp only [hc, if_false] at h
    cases h
    exact ⟨rfl, rfl, rfl, by omega⟩

theorem task_done_underflow (s : QueueState σ α)
    (h : s.unfinished_tasks = 0) : task_done s = .error .taskUnderflow := by
  simp [task_done, h]

/-! Preservation of maxsize and of the capacity bound along runs. -/

theorem applyOp_maxsize (E : Engine σ α) (s : QueueState σ α) (o : Op α) :
    (applyOp E s o).maxsize = s.maxsize := by
  cases o with
  | putNW x =>
    match h : put_nowait E x s with
    | .ok s2 => simpa [applyOp, h] using (put_nowait_ok_anatomy E x s s2 h).1
    | .error e => simp [applyOp, h]
  | getNW =>
    match h : get_nowait E s with
    | .ok r => simpa [applyOp, h] using (get_nowait_ok_anatomy E s r h).1
    | .error e => simp [applyOp, h]
  | taskDone =>
    match h : task_done s with
    | .ok s2 => simpa [applyOp, h] using (task_done_ok_anatomy s s2 h).1
    | .error e => simp [applyOp, h]

theorem run_maxsize (E : Engine σ α) (s : QueueState σ α) (ops : List (Op α)) :
    (run E s ops).maxsize = s.maxsize := by
  induction ops generalizing s with
  | nil => rfl
  | cons o rest ih => exact (ih (applyOp E s o)).trans (applyOp_maxsize E s o)

theorem applyOp_len_le (E : Engine σ α) (s : QueueState σ α) (o : Op α)
    (k : Nat) (hm : s.maxsize = k) (hk : k ≠ 0) (hl : s.queue.length ≤ k) :
    (applyOp E s o).queue.length ≤ k := by
  cases o with
  | putNW x =>
    match h : put_nowait E x s with
    | .ok s2 =>
      obtain ⟨_, hq, _, hguard⟩ := put_nowait_ok_anatomy E x s s2 h
      have hlt : s.queue.length < k := by
        by_contra hge
        exact hguard ⟨hm ▸ hk, by simp [qsize, hm]; omega⟩
      simp only [applyOp, h]
      simp [hq]
      omega
    | .error e => simpa [applyOp, h] using hl
  | getNW =>
    match h : get_nowait E s with
    | .ok r =>
      obtain ⟨_, hq, _⟩ := get_nowait_ok_anatomy E s r h
      simp only [applyOp, h]
      have : s.queue.length = r.2.queue.length + 1 := by rw [hq]; rfl
      omega
    | .error e => simpa [applyOp, h] using hl
  | taskDone =>
    match h : task_done s with
    | .ok s2 =>
      obtain ⟨_, hq, _, _⟩ := task_done_ok_anatomy s s2 h
      simp only [applyOp, h]
      rw [hq]
      exact hl
    | .error e => simpa [applyOp, h] using hl

theorem run_len_le (E : Engine σ α) (s : QueueState σ α) (ops : List (Op α))
    (k : Nat) (hm : s.maxsize = k) (hk : k ≠ 0) (hl : s.queue.length ≤ k) :
    (run E s ops).queue.length ≤ k := by
  induction ops generalizing s with
  | nil => exact hl
  | cons o rest ih =>
    exact ih (applyOp E s o) ((applyOp_maxsize E s o).trans hm)
      (applyOp_len_le E s o k hm hk hl)

/-! Runs annotated with the number of successful put_nowait and task_done
calls, for the task-counter invariant. -/

/-- One step of a run that also counts successful `put_nowait` calls (second
component) and successful `task_done` calls (third component). -/
def stepCount (E : Engine σ α) (t : QueueState σ α × Nat × Nat) (o : Op α) :
    QueueState σ α × Nat × Nat :=
  match o with
  | .putNW x =>
    match put_nowait E x t.1 with
    | .ok s2 => (s2, t.2.1 + 1, t.2.2)
    | .error _ => t
  | .getNW =>
    match get_nowait E t.1 with
    | .ok r => (r.2, t.2.1, t.2.2)
    | .error _ => t
  | .taskDone =>
    match task_done t.1 with
    | .ok s2 => (s2, t.2.1, t.2.2 + 1)
    | .error _ => t

/-- Run a sequence of operations from a state while counting successful
`put_nowait` and `task_done` calls. -/
def runCount (E : Engine σ α) (s : QueueState σ α) (ops : List (Op α)) :
    QueueState σ α × Nat × Nat :=
  ops.foldl (stepCount E) (s, 0, 0)

/-- Counter invariant: the unfinished-task counter equals successful puts
minus successful task_done calls and is never negative. -/
def CInv (t : QueueState σ α × Nat × Nat) : Prop :=
  t.1.unfinished_tasks = (t.2.1 : Int) - (t.2.2 : Int) ∧ 0 ≤ t.1.unfinished_tasks

theorem stepCount_CInv (E : Engine σ α) (t : QueueState σ α × Nat × Nat)
    (o : Op α) (h : CInv t) : CInv (stepCount E t o) := by
  obtain ⟨h1, h2⟩ := h
  cases o with
  | putNW x =>
    match hp : put_nowait E x t.1 with
    | .ok s2 =>
      obtain ⟨_, _, hu, _⟩ := put_nowait_ok_anatomy E x t.1 s2 hp
      have e1 : stepCount E t (Op.putNW x) = (s2, t.2.1 + 1, t.2.2) := by
        simp [stepCount, hp]
      rw [e1]
      constructor
      · show s2.unfinished_tasks = ((t.2.1 + 1 : Nat) : Int) - (t.2.2 : Int)
        rw [hu, h1]
        push_cast
        ring
      · show (0 : Int) ≤ s2.unfinished_tasks
        rw [hu]
        omega
    | .error e => simpa [stepCount, hp] using And.intro h1 h2
  | getNW =>
    match hp : get_nowait E t.1 with
    | .ok r =>
      obtain ⟨_, _, hu⟩ := get_nowait_ok_anatomy E t.1 r hp
      have e1 : stepCount E t Op.getNW = (r.2, t.2.1, t.2.2) := by
        simp [stepCount, hp]
      rw [e1]
      exact ⟨hu.trans h1, hu ▸ h2⟩
    | .error e => simpa [stepCount, hp] using And.intro h1 h2
  | taskDone =>
    match hp : task_done t.1 with
    | .ok s2 =>
      obtain ⟨_, _, hu, hpos⟩ := task_done_ok_anatomy t.1 s2 hp
      have e1 : stepCount E t Op.taskDone = (s2, t.2.1, t.2.2 + 1) := by
        simp [stepCount, hp]
      rw [e1]
      constructor
      · show s2.unfinished_tasks = (t.2.1 : Int) - ((t.2.2 + 1 : Nat) : Int)
        rw [hu, h1]
        push_cast
        ring
      · show (0 : Int) ≤ s2.unfinished_tasks
        rw [hu]
        omega
    | .error e => simpa [stepCount, hp] using And.intro h1 h2

theorem foldl_stepCount_CInv (E : Engine σ α) (ops : List (Op α))
    (t : QueueState σ α × Nat × Nat) (h : CInv t) :
    CInv (ops.foldl (stepCount E) t) := by
  induction ops generalizing t with
  | nil => exact h
  | cons o rest ih => exact ih (stepCount E t o) (stepCount_CInv E t o h)

/-! The DbmEngine: an indexed key-value log with head/tail pointers
(`engines/dbm.py`).  The keyed store is modelled by the two metadata keys
and an association list from item ids to items; `db.set` prepends (lookup
finds the newest binding first, so this is overwrite semantics) and
`db.delete` filters the key out. -/

/-- Python truthiness of an optional integer value read by `_get_obj`: a
missing key and the value 0 are both falsy. -/
def pyId (o : Option Nat) : Option Nat :=
  match o with
  | none => none
  | some n => if n = 0 then none else some n

/-- Lookup in an association list, newest binding first. -/
def alookup : List (Nat × α) → Nat → Option α
  | [], _ => none
  | kv :: rest, key => if kv.1 = key then some kv.2 else alookup rest key

/-- Overwrite a key (db.set): prepend the binding. -/
def aset (l : List (Nat × α)) (key : Nat) (v : α) : List (Nat × α) :=
  (key, v) :: l

/-- Delete a key (db.delete): drop all bindings of the key. -/
def adel (l : List (Nat × α)) (key : Nat) : List (Nat × α) :=
  l.filter (fun kv => kv.1 ≠ key)

/-- State of one DBM database: the two metadata keys `head_id`, `tail_id`
and the `item-<id>` entries. -/
structure DbmStore (α : Type) where
  head_id : Option Nat
  tail_id : Option Nat
  items : List (Nat × α)
deriving DecidableEq

/-- Content of the file at the queue's data path as seen by the DBM engine:
absent, a valid DBM database, or an unreadable file (opening raises
`dbm.error`). -/
inductive DbmFile (α : Type) where
  | good : DbmStore α → DbmFile α
  | corrupt : DbmFile α
deriving DecidableEq

/-- File-system slice visible to the DBM engine: the data file and the
reserved `.bak` backup path. -/
structure DbmFS (α : Type) where
  dataFile : Option (DbmFile α)
  bakFile : Option (DbmFile α)
deriving DecidableEq

namespace DbmEngine

/-- Body of DbmEngine.fetch_all on an opened database: read `head_id` and
`tail_id`; when either is falsy return the empty list; otherwise return the
entries at keys `item-head .. item-tail` (each read through `_get_obj`, so a
missing entry contributes `None`). -/
def fetchStore (st : DbmStore α) : List (Option α) :=
  match pyId st.head_id, pyId st.tail_id with
  | some h, some t => (List.range' h (t + 1 - h)).map (alookup st.items)
  | _, _ => []

/-- DbmEngine.fetch_all: open the database read-only; a missing or
unreadable file raises `dbm.error`, which is caught and yields the empty
list; note that no backup/rename of the unreadable file happens.  The
file-system state is returned unchanged alongside the items. -/
def fetch_all (fs : DbmFS α) : List (Option α) × DbmFS α :=
  match fs.dataFile with
  | some (.good st) => (fetchStore st, fs)
  | _ => ([], fs)

/-- DbmEngine.add_item on an opened database: read `tail_id`; when truthy
the new item id is `tail_id + 1`, else 1 (first item); write the item under
its key, advance `tail_id`, and for a first item also set `head_id`. -/
def add_item (item : α) (st : DbmStore α) : DbmStore α :=
  match pyId st.tail_id with
  | some t =>
    { head_id := st.head_id
      tail_id := some (t + 1)
      items := aset st.items (t + 1) item }
  | none =>
    { head_id := some 1
      tail_id := some 1
      items := aset st.items 1 item }

/-- DbmEngine.remove_item on an opened database: read both pointers; when
either is falsy raise `ValueError("Nothing to remove from an empty
database")`; otherwise delete the head entry and either advance `head_id`
(items left) or delete both pointers (was last item). -/
def remove_item (st : DbmStore α) : Except Unit (DbmStore α) :=
  match pyId st.head_id, pyId st.tail_id with
  | some h, some t =>
    let items2 := adel st.items h
    if h ≠ t then
      .ok { head_id := some (h + 1), tail_id := st.tail_id, items := items2 }
    else
      .ok { head_id := none, tail_id := none, items := items2 }
  | _, _ => .error ()

/-- Representation predicate: the store holds exactly the item sequence `s`,
with consecutive ids starting at the head pointer. -/
def Represents (st : DbmStore α) (s : List α) : Prop :=
  (st.head_id = none ∧ st.tail_id = none ∧ s = [])
  ∨ ∃ h, st.head_id = some h ∧ st.tail_id = some (h + s.length - 1) ∧
      0 < h ∧ s ≠ [] ∧
      ∀ i, i < s.length → alookup st.items (h + i) = s[i]?

end DbmEngine

theorem pyId_some_of_pos (h : Nat) (hpos : 0 < h) (o : Option Nat)
    (ho : o = some h) : pyId o = some h := by
  have : h ≠ 0 := by omega
  simp [pyId, ho, this]

theorem fetchStore_represents (st : DbmStore α) (s : List α)
    (hr : DbmEngine.Represents st s) :
    DbmEngine.fetchStore st = s.map some := by
  rcases hr with ⟨hh, ht, hs⟩ | ⟨h, hh, ht, hpos, hne, hlook⟩
  · simp [DbmEngine.fetchStore, hh, ht, pyId, hs]
  · have hlen : 0 < s.length := List.length_pos.mpr hne
    have e1 : pyId st.head_id = some h := pyId_some_of_pos h hpos _ hh
    have e2 : pyId st.tail_id = some (h + s.length - 1) :=
      pyId_some_of_pos _ (by omega) _ ht
    have hrange : (h + s.length - 1) + 1 - h = s.length := by omega
    simp only [DbmEngine.fetchStore, e1, e2, hrange]
    apply List.ext_getElem?
    intro i
    by_cases hi : i < s.length
    · rw [List.getElem?_map, List.getElem?_map,
        List.getElem?_range' _ _ hi]
      simp only [Option.map]
      rw [show h + 1 * i = h + i by ring, hlook i hi]
      match hg : s[i]? with
      | some v => rfl
      | none =>
        exfalso
        rw [List.getElem?_eq_none_iff] at hg
        omega
    · rw [List.getElem?_eq_none (by simpa using hi),
        List.getElem?_eq_none (by simpa [List.length_range'] using hi)]

theorem add_item_represents (st : DbmStore α) (s : List α) (x : α)
    (hr : DbmEngine.Represents st s) :
    DbmEngine.Represents (DbmEngine.add_item x st) (s ++ [x]) := by
  rcases hr with ⟨hh, ht, hs⟩ | ⟨h, hh, ht, hpos, hne, hlook⟩
  · subst hs
    right
    refine ⟨1, ?_, ?_, Nat.one_pos, by simp, ?_⟩
    · simp [DbmEngine.add_item, ht, pyId, hh]
    · simp [DbmEngine.add_item, ht, pyId]
    · intro i hi
      simp only [List.length_append, List.length_nil, List.length_cons] at hi
      interval_cases i
      simp [DbmEngine.add_item, ht, pyId, alookup, aset]
  · have hlen : 0 < s.length := List.length_pos.mpr hne
    have e2 : pyId st.tail_id = some (h + s.length - 1) :=
      pyId_some_of_pos _ (by omega) _ ht
    right
    refine ⟨h, ?_, ?_, hpos, by simp, ?_⟩
    · simp [DbmEngine.add_item, e2, hh]
    · simp only [DbmEngine.add_item, e2, List.length_append, List.length_cons,
        List.length_nil]
      congr 1
      omega
    · intro i hi
      simp only [List.length_append, List.length_cons, List.length_nil] at hi
      simp only [DbmEngine.add_item, e2, aset, alookup]
      by_cases hie : i = s.length
      · subst hie
        rw [if_pos (by omega)]
        rw [List.getElem?_append_right (le_refl _)]
        simp
      · have hilt : i < s.length := by omega
        rw [if_neg (by omega)]
        rw [List.getElem?_append, if_pos hilt]
        exact hlook i hilt

/-! The Queue of `core.py`: same concurrency layer, but `get_nowait` deletes
the data file itself once the mirror becomes empty, and `create` removes the
data file after probing writability.  Modelled with its default snapshot
engine (the `core.py` PickledList, `can_append = False`, whose
`read_items_from_file` is identical to `PickledList.fetch_all` above and
whose `write_objs_to_file` overwrites the data file). -/

/-- State of one `core.py` Queue instance backed by the snapshot engine. -/
structure CoreQueueState (α : Type) where
  maxsize : Nat
  queue : List α
  unfinished_tasks : Int
  fs : SimpleFS α
deriving DecidableEq

namespace CoreQueue

/-- core.py PickledList.write_objs_to_file: overwrite the data file with the
pickled items. -/
def writeObjs (items : List α) (fs : SimpleFS α) : SimpleFS α :=
  { fs with dataFile := some (.good items) }

/-- core.py Queue.put_nowait with a snapshot engine: capacity check, then
append to the mirror, rewrite the whole mirror to the data file and
increment the unfinished-task counter. -/
def put_nowait (item : α) (s : CoreQueueState α) :
    Except QErr (CoreQueueState α) :=
  if s.maxsize ≠ 0 ∧ s.queue.length ≥ s.maxsize then .error .full
  else .ok { s with
    queue := s.queue ++ [item]
    fs := writeObjs (s.queue ++ [item]) s.fs
    unfinished_tasks := s.unfinished_tasks + 1 }

/-- core.py Queue.get_nowait: raise QueueEmpty on an empty mirror; otherwise
pop the head; if the mirror is still non-empty rewrite the data file with
it, else remove the data file (`aiofiles.os.remove`). -/
def get_nowait (s : CoreQueueState α) :
    Except QErr (α × CoreQueueState α) :=
  match s.queue with
  | [] => .error .empty
  | item :: rest =>
    if rest.isEmpty then
      .ok (item, { s with queue := rest, fs := { s.fs with dataFile := none } })
    else
      .ok (item, { s with queue := rest, fs := writeObjs rest s.fs })

/-- core.py Queue.create with its default engine: read the items from the
data file (quarantining a corrupt one); when none are recovered, write an
empty sequence to probe writability and remove the file again; the mirror
starts as the recovered items and `_maxsize = max(0, maxsize)`. -/
def create (maxsize : Int) (fs : SimpleFS α) : CoreQueueState α :=
  let p := PickledList.fetch_all fs
  let fs2 :=
    if p.1.isEmpty then { writeObjs ([] : List α) p.2 with dataFile := none }
    else p.2
  { maxsize := (max 0 maxsize).toNat
    queue := p.1
    unfinished_tasks := 0
    fs := fs2 }

end CoreQueue

/-! Claims. -/

/-- C1: Strict FIFO order.  For every queue (any state whose mirror is empty
and reconciled with its well-formed store) and every list of items whose
length fits the capacity, performing the `put_nowait` calls for all the
items followed by that many `get_nowait` calls succeeds and returns exactly
the inserted items in insertion order.  (`put`/`get` reduce to their
`_nowait` bodies whenever these succeed, as here.) -/
theorem C1_fifo_order (E : Engine σ α) (WF : σ → Prop) (L : EngineLaws E WF)
    (s : QueueState σ α) (hinv : QInv E WF s) (hempty : s.queue = [])
    (xs : List α) (hcap : s.maxsize = 0 ∨ xs.length ≤ s.maxsize) :
    ∃ s1 s2, putAll E xs s = .ok s1 ∧
      getN E xs.length s1 = .ok (xs, s2) ∧ s2.queue = [] := by
  obtain ⟨s1, hput, hq1, hm1, hinv1⟩ := putAll_ok E WF L xs s hinv (by
    rcases hcap with h0 | hle
    · exact .inl h0
    · right
      rw [hempty]
      simpa using hle)
  obtain ⟨s2, hget, hq2, hinv2⟩ := getN_ok E WF L xs [] s1 hinv1 (by
    rw [hq1, hempty]
    simp)
  exact ⟨s1, s2, hput, hget, hq2⟩

/-- Witness for C1 at a concrete queue: three items through a fresh
PickledList-backed unbounded queue come back in order. -/
theorem C1_fifo_order_witness :
    ∃ s1 s2,
      putAll (pickledListEngine Nat) [4, 5, 6]
        (create (pickledListEngine Nat) 0 ⟨none, none⟩) = .ok s1 ∧
      getN (pickledListEngine Nat) 3 s1 = .ok ([4, 5, 6], s2) ∧ s2.queue = [] :=
  C1_fifo_order (pickledListEngine Nat) SimpleWF (pickledList_laws Nat)
    (create (pickledListEngine Nat) 0 ⟨none, none⟩)
    (create_QInv (pickledListEngine Nat) SimpleWF (pickledList_laws Nat) 0 ⟨none, none⟩)
    rfl [4, 5, 6] (.inl rfl)

/-- C4: Task-counter invariant.  Along every sequence of operations from a
freshly created queue, the unfinished-task counter equals the number of
successful `put_nowait` calls minus the number of successful `task_done`
calls, it is never negative, and `task_done` on a zero counter raises the
underflow `ValueError`. -/
theorem C4_task_counter (E : Engine σ α) (m : Int) (st : σ)
    (ops : List (Op α)) :
    (runCount E (create E m st) ops).1.unfinished_tasks
        = ((runCount E (create E m st) ops).2.1 : Int)
          - ((runCount E (create E m st) ops).2.2 : Int) ∧
      0 ≤ (runCount E (create E m st) ops).1.unfinished_tasks ∧
      (∀ s : QueueState σ α, s.unfinished_tasks = 0 →
        task_done s = .error .taskUnderflow) := by
  have h := foldl_stepCount_CInv E ops (create E m st, 0, 0)
    ⟨by simp [create], by simp [create]⟩
  exact ⟨h.1, h.2, fun s hs => task_done_underflow s hs⟩

/-- C5: Mirror/storage reconcilability.  For every storage engine satisfying
the engine laws on its well-formed stores and every operation sequence from
a freshly created queue, the persisted contents equal the in-memory mirror
at every quiescent point (each point is reached by some prefix `ops`). -/
theorem C5_mirror_storage_sync (E : Engine σ α) (WF : σ → Prop)
    (L : EngineLaws E WF) (m : Int) (st : σ) (ops : List (Op α)) :
    contents E (run E (create E m st) ops).store
      = (run E (create E m st) ops).queue :=
  (run_QInv E WF L ops (create E m st) (create_QInv E WF L m st)).2

/-- Witness for C5 at a concrete queue and run: put two items and get one on
a PickledList-backed queue; the data file then holds exactly the mirror. -/
theorem C5_mirror_storage_sync_witness :
    contents (pickledListEngine Nat)
        (run (pickledListEngine Nat)
          (create (pickledListEngine Nat) 0 ⟨none, none⟩)
          [.putNW 1, .putNW 2, .getNW]).store
      = (run (pickledListEngine Nat)
          (create (pickledListEngine Nat) 0 ⟨none, none⟩)
          [.putNW 1, .putNW 2, .getNW]).queue :=
  C5_mirror_storage_sync (pickledListEngine Nat) SimpleWF (pickledList_laws Nat)
    0 ⟨none, none⟩ [.putNW 1, .putNW 2, .getNW]

/-- C10: Negative maxsize normalizes to unbounded.  Creating a queue with a
negative `maxsize` yields `maxsize = 0`; along every subsequent operation
sequence `full()` is false and `put_nowait` succeeds and appends, however
many items are enqueued. -/
theorem C10_negative_maxsize (E : Engine σ α) (m : Int) (hm : m < 0) (st : σ)
    (ops : List (Op α)) :
    (create E m st).maxsize = 0 ∧
      isFullQ (run E (create E m st) ops) = false ∧
      (∀ x, put_nowait E x (run E (create E m st) ops)
        = .ok { run E (create E m st) ops with
            queue := (run E (create E m st) ops).queue ++ [x]
            store := E.add_item x (run E (create E m st) ops).store
            unfinished_tasks := (run E (create E m st) ops).unfinished_tasks + 1 }) := by
  have hmax : (create E m st).maxsize = 0 := by
    simp only [create]
    omega
  have hrun : (run E (create E m st) ops).maxsize = 0 :=
    (run_maxsize E (create E m st) ops).trans hmax
  refine ⟨hmax, ?_, ?_⟩
  · simp [isFullQ, hrun]
  · intro x
    simp [put_nowait, hrun]

/-- Witness for C10: maxsize -1, a run that enqueues two items; full() is
false and a further put_nowait still succeeds. -/
theorem C10_negative_maxsize_witness :
    (create (pickledListEngine Nat) (-1) ⟨none, none⟩).maxsize = 0 ∧
      isFullQ (run (pickledListEngine Nat)
        (create (pickledListEngine Nat) (-1) ⟨none, none⟩)
        [.putNW 1, .putNW 2]) = false ∧
      (∀ x, put_nowait (pickledListEngine Nat) x
          (run (pickledListEngine Nat)
            (create (pickledListEngine Nat) (-1) ⟨none, none⟩)
            [.putNW 1, .putNW 2])
        = .ok { run (pickledListEngine Nat)
              (create (pickledListEngine Nat) (-1) ⟨none, none⟩)
              [.putNW 1, .putNW 2] with
            queue := (run (pickledListEngine Nat)
              (create (pickledListEngine Nat) (-1) ⟨none, none⟩)
              [.putNW 1, .putNW 2]).queue ++ [x]
            store := (pickledListEngine Nat).add_item x
              (run (pickledListEngine Nat)
                (create (pickledListEngine Nat) (-1) ⟨none, none⟩)
                [.putNW 1, .putNW 2]).store
            unfinished_tasks := (run (pickledListEngine Nat)
              (create (pickledListEngine Nat) (-1) ⟨none, none⟩)
              [.putNW 1, .putNW 2]).unfinished_tasks + 1 }) :=
  C10_negative_maxsize (pickledListEngine Nat) (-1) (by omega) ⟨none, none⟩
    [.putNW 1, .putNW 2]

/-- C2: Durability round-trip.  Engine level, for all three engines: on a
store persisting sequence `s`, a `fetch_all` after `add_item x` yields `s`
with `x` appended.  Queue level: after a successful `put` of `x` on an empty
queue, a fresh queue created against the resulting store returns an item
equal to `x` from `get`. -/
theorem C2_durability_roundtrip (α : Type) :
    (∀ (fs : SimpleFS α) (x : α), SimpleWF fs →
      contents (pickledListEngine α) ((pickledListEngine α).add_item x fs)
        = contents (pickledListEngine α) fs ++ [x]) ∧
    (∀ (fs : PSFS α) (x : α), PSWF fs →
      contents (pickleSequenceEngine α) ((pickleSequenceEngine α).add_item x fs)
        = contents (pickleSequenceEngine α) fs ++ [x]) ∧
    (∀ (st : DbmStore α) (s : List α) (x : α), DbmEngine.Represents st s →
      DbmEngine.fetchStore (DbmEngine.add_item x st) = (s ++ [x]).map some) ∧
    (∀ (σ : Type) (E : Engine σ α) (WF : σ → Prop), EngineLaws E WF →
      ∀ (m : Int) (s : QueueState σ α) (x : α), QInv E WF s → s.queue = [] →
      ∃ s1 r, put_nowait E x s = .ok s1 ∧
        get_nowait E (create E m s1.store) = .ok r ∧ r.1 = x) := by
  refine ⟨?_, ?_, ?_, ?_⟩
  · intro fs x hwf
    exact (pickledList_laws α).contents_add x fs hwf
  · intro fs x hwf
    exact (pickleSequence_laws α).contents_add x fs hwf
  · intro st s x hr
    exact fetchStore_represents _ _ (add_item_represents st s x hr)
  · intro σ E WF L m s x hinv hempty
    have hguard : ¬(s.maxsize ≠ 0 ∧ qsize s ≥ s.maxsize) := by
      rintro ⟨h1, h2⟩
      simp [qsize, hempty] at h2
      exact h1 h2
    have hput : put_nowait E x s = .ok { s with
        queue := s.queue ++ [x]
        store := E.add_item x s.store
        unfinished_tasks := s.unfinished_tasks + 1 } := by
      simp [put_nowait, hguard]
    have hs1 : QInv E WF { s with
        queue := s.queue ++ [x]
        store := E.add_item x s.store
        unfinished_tasks := s.unfinished_tasks + 1 } :=
      put_nowait_QInv E WF L x s _ hinv hput
    set c := create E m (E.add_item x s.store) with hc
    have hcinv : QInv E WF c := create_QInv E WF L m _
    have hcq : c.queue = [x] := by
      have e : c.queue = contents E (E.add_item x s.store) := rfl
      rw [e, L.contents_add x s.store hinv.1, hinv.2, hempty]
      rfl
    obtain ⟨st2, hrm, _, _⟩ :=
      L.remove_ok c.store x [] hcinv.1 (hcinv.2.trans hcq)
    refine ⟨_, (x, { c with queue := [], store := st2 }), hput, ?_, rfl⟩
    have : get_nowait E c = .ok (x, { c with queue := [], store := st2 }) := by
      simp [get_nowait, hcq, hrm]
    exact this

/-- Witness for C2: concrete stores holding one item for each engine, and a
concrete queue-level round-trip of the item 9. -/
theorem C2_durability_roundtrip_witness :
    contents (pickledListEngine Nat)
        ((pickledListEngine Nat).add_item 2 ⟨some (.good [1]), none⟩) = [1, 2] ∧
    contents (pickleSequenceEngine Nat)
        ((pickleSequenceEngine Nat).add_item 2 ⟨some [.ok 1], none⟩) = [1, 2] ∧
    DbmEngine.fetchStore (DbmEngine.add_item 2 (⟨some 1, some 1, [(1, 1)]⟩ : DbmStore Nat))
        = [some 1, some 2] ∧
    (∃ (s1 : QueueState (SimpleFS Nat) Nat) (r : Nat × QueueState (SimpleFS Nat) Nat),
      put_nowait (pickledListEngine Nat) 9
          (create (pickledListEngine Nat) 0 ⟨none, none⟩) = .ok s1 ∧
        get_nowait (pickledListEngine Nat)
          (create (pickledListEngine Nat) 0 s1.store) = .ok r ∧ r.1 = 9) := by
  obtain ⟨h1, h2, h3, h4⟩ := C2_durability_roundtrip Nat
  refine ⟨?_, ?_, ?_, ?_⟩
  · exact (h1 ⟨some (.good [1]), none⟩ 2 (.inr ⟨[1], rfl⟩)).trans (by decide)
  · exact (h2 ⟨some [.ok 1], none⟩ 2 (.inr ⟨[1], rfl⟩)).trans (by decide)
  · refine (h3 ⟨some 1, some 1, [(1, 1)]⟩ [1] 2 ?_).trans (by decide)
    refine .inr ⟨1, rfl, by decide, by decide, by decide, ?_⟩
    intro i hi
    simp only [List.length_cons, List.length_nil] at hi
    interval_cases i
    decide
  · exact h4 (SimpleFS Nat) (pickledListEngine Nat) SimpleWF (pickledList_laws Nat)
      0 (create (pickledListEngine Nat) 0 ⟨none, none⟩) 9
      (create_QInv (pickledListEngine Nat) SimpleWF (pickledList_laws Nat) 0 ⟨none, none⟩)
      rfl

/-- C3 counterexample: a queue created with `maxsize = 1` against a data
file already holding two items has `qsize() = 2 > 1` immediately after
creation — `create` does not truncate recovered contents to `maxsize`.  This
refutes the claim as stated (no observable point with `qsize() > k`). -/
theorem C3_capacity_counterexample :
    (create (pickledListEngine Nat) 1 ⟨some (.good [7, 8]), none⟩).maxsize = 1 ∧
      qsize (create (pickledListEngine Nat) 1 ⟨some (.good [7, 8]), none⟩) = 2 := by
  constructor <;> rfl

/-- C3 amended: for a queue created with `maxsize = k > 0` whose recovered
initial contents have at most `k` items, `qsize()` never exceeds `k` along
any operation sequence; and on any state within the bound, `put_nowait`
raises Full exactly when `qsize() = k`, succeeding and appending the item
otherwise. -/
theorem C3_capacity_invariant (E : Engine σ α) (k : Nat) (hk : 0 < k) (st : σ)
    (hinit : (E.fetch_all st).1.length ≤ k) (ops : List (Op α)) :
    (run E (create E (k : Int) st) ops).queue.length ≤ k ∧
      (∀ (s : QueueState σ α) (x : α), s.maxsize = k → s.queue.length ≤ k →
        ((put_nowait E x s = .error .full ↔ s.queue.length = k) ∧
          (s.queue.length < k → put_nowait E x s = .ok { s with
            queue := s.queue ++ [x]
            store := E.add_item x s.store
            unfinished_tasks := s.unfinished_tasks + 1 }))) := by
  have hmax : (create E (k : Int) st).maxsize = k := by
    simp [create]
  constructor
  · exact run_len_le E _ ops k hmax (by omega) (by simpa [create] using hinit)
  · intro s x hm hl
    constructor
    · rw [put_nowait_full_iff]
      unfold qsize
      constructor
      · rintro ⟨h1, h2⟩
        omega
      · intro he
        constructor
        · omega
        · omega
    · intro hlt
      have hng : ¬(s.maxsize ≠ 0 ∧ qsize s ≥ s.maxsize) := by
        unfold qsize
        omega
      simp [put_nowait, hng]

/-- Witness for C3 amended: a fresh empty store, `k = 1`, one put then one
failing put. -/
theorem C3_capacity_invariant_witness :
    (run (pickledListEngine Nat)
        (create (pickledListEngine Nat) (1 : Nat) ⟨none, none⟩)
        [.putNW 1, .putNW 2]).queue.length ≤ 1 ∧
      (∀ (s : QueueState (SimpleFS Nat) Nat) (x : Nat),
        s.maxsize = 1 → s.queue.length ≤ 1 →
        ((put_nowait (pickledListEngine Nat) x s = .error .full ↔
            s.queue.length = 1) ∧
          (s.queue.length < 1 → put_nowait (pickledListEngine Nat) x s
            = .ok { s with
              queue := s.queue ++ [x]
              store := (pickledListEngine Nat).add_item x s.store
              unfinished_tasks := s.unfinished_tasks + 1 }))) :=
  C3_capacity_invariant (pickledListEngine Nat) 1 (by omega) ⟨none, none⟩
    (by decide) [.putNW 1, .putNW 2]

/-- C6 counterexample: `DbmEngine.fetch_all` on an unreadable data file
catches `dbm.error` and returns the empty list, but performs no rename: the
reserved `.bak` path stays empty, so no quarantined copy is discoverable,
refuting the claim for the default engine. -/
theorem C6_corruption_counterexample :
    DbmEngine.fetch_all (⟨some .corrupt, none⟩ : DbmFS Nat)
        = ([], ⟨some .corrupt, none⟩) ∧
      (DbmEngine.fetch_all (⟨some .corrupt, none⟩ : DbmFS Nat)).2.bakFile = none :=
  ⟨rfl, rfl⟩

/-- C6 amended: for the pickle-based engines (snapshot PickledList and
append-log PickleSequence) the full claim holds: `fetch_all` on an
unparsable data file returns the empty list without raising, a queue
created against that path has `qsize() = 0`, and the original bytes are
quarantined at the `.bak` path.  The DbmEngine absorbs the parse error and
returns the empty list, but leaves the file system untouched — no
quarantined copy is produced. -/
theorem C6_corruption_tolerance (α : Type) :
    (∀ b : Option (FileData α),
      PickledList.fetch_all (⟨some .corrupt, b⟩ : SimpleFS α)
          = ([], ⟨none, some .corrupt⟩) ∧
        qsize (create (pickledListEngine α) 0 (⟨some .corrupt, b⟩ : SimpleFS α)) = 0 ∧
        (create (pickledListEngine α) 0
          (⟨some .corrupt, b⟩ : SimpleFS α)).store.bakFile = some .corrupt) ∧
    (∀ (fr : List (PSFrame α)) (b : Option (List (PSFrame α))),
      PickleSequence.parseFrames fr = none →
        PickleSequence.fetch_all (⟨some fr, b⟩ : PSFS α) = ([], ⟨none, some fr⟩) ∧
        qsize (create (pickleSequenceEngine α) 0 (⟨some fr, b⟩ : PSFS α)) = 0 ∧
        (create (pickleSequenceEngine α) 0
          (⟨some fr, b⟩ : PSFS α)).store.bakFile = some fr) ∧
    (∀ fs : DbmFS α, fs.dataFile = some .corrupt →
      DbmEngine.fetch_all fs = ([], fs)) := by
  refine ⟨?_, ?_, ?_⟩
  · intro b
    exact ⟨rfl, rfl, rfl⟩
  · intro fr b hp
    refine ⟨?_, ?_, ?_⟩
    · simp [PickleSequence.fetch_all, hp]
    · simp [create, qsize, pickleSequenceEngine, PickleSequence.fetch_all, hp,
        PickleSequence.initStore, PickleSequence.saveAllItems]
    · simp [create, pickleSequenceEngine, PickleSequence.fetch_all, hp,
        PickleSequence.initStore, PickleSequence.saveAllItems]
  · intro fs h
    simp [DbmEngine.fetch_all, h]

/-- Witness for C6 amended: concrete corrupt stores for all three engines. -/
theorem C6_corruption_tolerance_witness :
    (PickledList.fetch_all (⟨some .corrupt, none⟩ : SimpleFS Nat)
          = ([], ⟨none, some .corrupt⟩) ∧
        qsize (create (pickledListEngine Nat) 0
          (⟨some .corrupt, none⟩ : SimpleFS Nat)) = 0 ∧
        (create (pickledListEngine Nat) 0
          (⟨some .corrupt, none⟩ : SimpleFS Nat)).store.bakFile = some .corrupt) ∧
      (PickleSequence.fetch_all (⟨some [.bad], none⟩ : PSFS Nat)
          = ([], ⟨none, some [.bad]⟩) ∧
        qsize (create (pickleSequenceEngine Nat) 0
          (⟨some [.bad], none⟩ : PSFS Nat)) = 0 ∧
        (create (pickleSequenceEngine Nat) 0
          (⟨some [.bad], none⟩ : PSFS Nat)).store.bakFile = some [.bad]) ∧
      DbmEngine.fetch_all (⟨some .corrupt, some .corrupt⟩ : DbmFS Nat)
        = ([], ⟨some .corrupt, some .corrupt⟩) := by
  obtain ⟨h1, h2, h3⟩ := C6_corruption_tolerance Nat
  exact ⟨h1 none, h2 [.bad] none rfl, h3 ⟨some .corrupt, some .corrupt⟩ rfl⟩

/-- C7: Backing store deleted when empty (the `core.py` Queue, whose
`get_nowait` performs the deletion).  General part: the `get_nowait` call
that removes the last remaining item removes the data file.  Concrete
scenario: put "x", put "y" (puts on an unbounded queue never block, so `put`
reduces to `put_nowait`), get "x", get "y"; then `qsize()` is 0 and the data
file is absent. -/
theorem C7_delete_on_empty :
    (∀ (α : Type) (x : α) (s : CoreQueueState α), s.queue = [x] →
      CoreQueue.get_nowait s = .ok (x, { s with
        queue := []
        fs := { s.fs with dataFile := none } })) ∧
    (∃ q1 q2 q3 q4 : CoreQueueState String,
      CoreQueue.put_nowait "x" (CoreQueue.create 0 ⟨none, none⟩) = .ok q1 ∧
      CoreQueue.put_nowait "y" q1 = .ok q2 ∧
      CoreQueue.get_nowait q2 = .ok ("x", q3) ∧
      CoreQueue.get_nowait q3 = .ok ("y", q4) ∧
      q4.queue.length = 0 ∧ q4.fs.dataFile = none) := by
  constructor
  · intro α x s h
    simp [CoreQueue.get_nowait, h]
  · exact ⟨_, _, _, _, rfl, rfl, rfl, rfl, rfl, rfl⟩

/-- Witness for C7: a concrete one-item queue state; getting the item
deletes the data file. -/
theorem C7_delete_on_empty_witness :
    CoreQueue.get_nowait (⟨0, [3], 1, ⟨some (.good [3]), none⟩⟩ : CoreQueueState Nat)
      = .ok (3, ⟨0, [], 1, ⟨none, none⟩⟩) :=
  C7_delete_on_empty.1 Nat 3 ⟨0, [3], 1, ⟨some (.good [3]), none⟩⟩ rfl

/-- C8: Empty-store removal error.  For each of the three spec variants
(snapshot PickledList, append-log PickleSequence, indexed-log DbmEngine),
`remove_item` on a store whose persisted logical sequence is empty fails
with an error (IndexError from `pop(0)` for the pickle engines, the
`ValueError` for the DBM engine) instead of succeeding silently. -/
theorem C8_remove_from_empty (α : Type) :
    (∀ fs : SimpleFS α, (PickledList.fetch_all fs).1 = [] →
      PickledList.remove_item fs = .error ()) ∧
    (∀ fs : PSFS α, (PickleSequence.fetch_all fs).1 = [] →
      PickleSequence.remove_item fs = .error ()) ∧
    (∀ st : DbmStore α, DbmEngine.Represents st [] →
      DbmEngine.remove_item st = .error ()) := by
  refine ⟨?_, ?_, ?_⟩
  · intro fs h
    simp [PickledList.remove_item, h]
  · intro fs h
    simp [PickleSequence.remove_item, h]
  · intro st hr
    rcases hr with ⟨hh, ht, _⟩ | ⟨h, _, _, _, hne, _⟩
    · simp [DbmEngine.remove_item, hh, ht, pyId]
    · exact absurd rfl hne

/-- Witness for C8: concrete empty stores for all three engines. -/
theorem C8_remove_from_empty_witness :
    PickledList.remove_item (⟨none, none⟩ : SimpleFS Nat) = .error () ∧
      PickleSequence.remove_item (⟨none, none⟩ : PSFS Nat) = .error () ∧
      DbmEngine.remove_item (⟨none, none, []⟩ : DbmStore Nat) = .error () := by
  obtain ⟨h1, h2, h3⟩ := C8_remove_from_empty Nat
  exact ⟨h1 ⟨none, none⟩ rfl, h2 ⟨none, none⟩ rfl,
    h3 ⟨none, none, []⟩ (.inl ⟨rfl, rfl, rfl⟩)⟩

/-- C9: Indexed-engine pointer tie-break.  When the DBM store holds exactly
one truthy metadata pointer, `fetch_all` treats the queue as empty and
`remove_item` raises the `ValueError` without deleting anything. -/
theorem C9_pointer_tiebreak (st : DbmStore α)
    (h : (pyId st.head_id).isSome ≠ (pyId st.tail_id).isSome) :
    DbmEngine.fetchStore st = [] ∧ DbmEngine.remove_item st = .error () := by
  match h1 : pyId st.head_id, h2 : pyId st.tail_id with
  | some a, none =>
    exact ⟨by simp [DbmEngine.fetchStore, h1, h2],
      by simp [DbmEngine.remove_item, h1, h2]⟩
  | none, some b =>
    exact ⟨by simp [DbmEngine.fetchStore, h1, h2],
      by simp [DbmEngine.remove_item, h1, h2]⟩
  | none, none => exact absurd (by simp [h1, h2]) h
  | some a, some b => exact absurd (by simp [h1, h2]) h

/-- Witness for C9: a store with a head pointer but no tail pointer. -/
theorem C9_pointer_tiebreak_witness :
    DbmEngine.fetchStore (⟨some 1, none, [(1, 5)]⟩ : DbmStore Nat) = [] ∧
      DbmEngine.remove_item (⟨some 1, none, [(1, 5)]⟩ : DbmStore Nat)
        = .error () :=
  C9_pointer_tiebreak ⟨some 1, none, [(1, 5)]⟩ (by decide)

end Adq
